import Mathlib

/-!
Shallow embedding of `libsel4prof` (src/libsel4prof/src/lib.c), the
always-on call-graph cycle profiler, together with proofs of the
specification claims about it.

All machine integers (`uintptr_t`, `size_t`, `ccnt_t = uint64_t`) are
modelled as `Nat` with explicit `% 2^64` where C arithmetic wraps.
-/

set_option maxRecDepth 4000

namespace Sel4Prof

/-- `#define PROFILE_MAGIC 0x970F17E3` -/
def PROFILE_MAGIC : Nat := 0x970F17E3

/-- `#define ENTRY_STACK_SIZE 128` -/
def ENTRY_STACK_SIZE : Nat := 128

/-- `UINT64_MAX` -/
def UINT64_MAX : Nat := 18446744073709551615

/-- `2^64`, the modulus of `uint64_t` / `uintptr_t` arithmetic. -/
def U64 : Nat := 18446744073709551616

/-- `sizeof(prof_node_t)` on the 64-bit targets this library builds for:
four 8-byte fields (`next`, `magic`, `cycle_count`, `fn`). -/
def profNodeSize : Nat := 32

/-- Wrapping `uint64_t` subtraction `a - b` (both arguments reduced mod `2^64`). -/
def usub (a b : Nat) : Nat := (a % U64 + (U64 - b % U64)) % U64

/-- `clamped_add`: saturating `uint64_t` addition.
```c
static inline ccnt_t clamped_add(ccnt_t a, ccnt_t b)
{
    if (UINT64_MAX - a >= b) {
        return a + b;
    } else {
        return UINT64_MAX;
    }
}
``` -/
def clamped_add (a b : Nat) : Nat :=
  if UINT64_MAX - a ≥ b then a + b else UINT64_MAX

/-- `node_from_fn`: location of a function's counter node, computed from
the function address alone.
```c
static inline prof_node_t *node_from_fn(void *fn)
{
    uintptr_t node_addr = (uintptr_t)fn - sizeof(prof_node_t);
    node_addr -= node_addr % sizeof(prof_node_t);
    return (void *)node_addr;
}
``` -/
def node_from_fn (fn : Nat) : Nat :=
  let node_addr := (fn % U64 + (U64 - profNodeSize)) % U64
  node_addr - node_addr % profNodeSize

/-- The contents of one `prof_node_t` (the `next` link is represented
separately: reachability through `next` is modelled by the
`ProfState.registry` list, and concretely by the `LL` structure below). -/
structure ProfNode where
  magic : Nat
  cycle_count : Nat
  fn : Nat
  deriving Repr, DecidableEq

/-- The profiler's mutable state, single-threaded view:
* `registry` — the addresses of the nodes reachable from `prof_list`,
  head first, following `next` until `NULL`;
* `node` — memory: the `prof_node_t` stored at each node address;
* `previous_cycles`, `call_stack_depth`, `call_stack` — the
  thread-local accounting state (`call_stack` is indexed by `Nat`;
  the code only ever accesses indices `< ENTRY_STACK_SIZE`, which is
  proved below, not assumed). -/
structure ProfState where
  registry : List Nat
  node : Nat → ProfNode
  previous_cycles : Nat
  call_stack_depth : Nat
  call_stack : Nat → Nat

/-- The stack index used for cycle attribution:
```c
if (call_stack_depth <= ENTRY_STACK_SIZE) {
    caller = call_stack[call_stack_depth - 1];
} else {
    caller = call_stack[ENTRY_STACK_SIZE - 1];
}
``` -/
def stackIndex (depth : Nat) : Nat :=
  if depth ≤ ENTRY_STACK_SIZE then depth - 1 else ENTRY_STACK_SIZE - 1

/-- The node-initialisation block of `__cyg_profile_func_enter`:
```c
if (node->magic != PROFILE_MAGIC) {
    *node = (prof_node_t) { .next = NULL, .magic = PROFILE_MAGIC,
                            .cycle_count = 0, .fn = this_fn };
    /* publish into the registry (the chained-exchange loop) */
}
```
The publish loop appends the node at the list tail (its concrete
behaviour is modelled by `publish` below). -/
def registerNode (this_fn : Nat) (s : ProfState) : ProfState :=
  let na := node_from_fn this_fn
  if (s.node na).magic ≠ PROFILE_MAGIC then
    { s with
      node := fun a => if a = na then
          { magic := PROFILE_MAGIC, cycle_count := 0, fn := this_fn }
        else s.node a,
      registry := s.registry ++ [na] }
  else s

/-- `__cyg_profile_func_enter(this_fn, call_site)`.  `ready` models
`sel4runtime_get_tls_base() != 0`; `counter` is the value returned by
`sel4bench_get_cycle_count()` at this event. -/
def funcEnter (ready : Bool) (this_fn call_site counter : Nat) (s : ProfState) :
    ProfState :=
  let _ := call_site  -- the call site is never used
  if !ready then s
  else
    let na := node_from_fn this_fn
    let s1 : ProfState := registerNode this_fn s
    -- The remaining statements write disjoint fields; each reads the
    -- pre-increment depth, stack and baseline, exactly as in the C:
    { registry := s1.registry
      -- if (call_stack_depth > 0) { caller->cycle_count =
      --     clamped_add(caller->cycle_count, counter - previous_cycles); }
      node :=
        if 0 < s1.call_stack_depth then
          fun a => if a = s1.call_stack (stackIndex s1.call_stack_depth) then
              { s1.node a with
                cycle_count := clamped_add (s1.node a).cycle_count
                  (usub counter s1.previous_cycles) }
            else s1.node a
        else s1.node
      -- previous_cycles = counter
      previous_cycles := counter % U64
      -- if (call_stack_depth < ENTRY_STACK_SIZE) { call_stack[call_stack_depth] = node; }
      call_stack :=
        if s1.call_stack_depth < ENTRY_STACK_SIZE then
          fun i => if i = s1.call_stack_depth then na else s1.call_stack i
        else s1.call_stack
      -- call_stack_depth += 1
      call_stack_depth := s1.call_stack_depth + 1 }

/-- `__cyg_profile_func_exit(this_fn, call_site)`.  Neither argument is
used by the body, matching the C code. -/
def funcExit (ready : Bool) (counter : Nat) (s : ProfState) : ProfState :=
  if !ready ∨ s.call_stack_depth = 0 then s
  else
    let cycles := usub counter s.previous_cycles
    let current := s.call_stack (stackIndex s.call_stack_depth)
    { s with
      node := fun a => if a = current then
          { s.node a with
            cycle_count := clamped_add (s.node a).cycle_count cycles }
        else s.node a,
      previous_cycles := counter % U64,
      call_stack_depth := s.call_stack_depth - 1 }

/-- One instrumentation event on a thread with the runtime ready. -/
inductive Event where
  | enter (fn call_site counter : Nat)
  | exit (counter : Nat)
  deriving Repr, DecidableEq

/-- Process one event (runtime ready). -/
def step (s : ProfState) (e : Event) : ProfState :=
  match e with
  | .enter fn cs c => funcEnter true fn cs c s
  | .exit c => funcExit true c s

/-- Process a sequence of events. -/
def run (s : ProfState) (es : List Event) : ProfState := es.foldl step s

/-- The initial state: empty registry, no node initialised (all-zero
memory, so no magic marker matches), depth zero, counter baseline zero. -/
def initState : ProfState :=
  { registry := []
    node := fun _ => { magic := 0, cycle_count := 0, fn := 0 }
    previous_cycles := 0
    call_stack_depth := 0
    call_stack := fun _ => 0 }

/-! ## The dump/reset protocol (`prof_dump`)

The external encoder (`base64_t` streamer plus the `cbor64_*` calls and
the final `fputc`) is modelled abstractly: each primitive takes an
encoder state and returns a C status code (`Int`) together with the new
encoder state; `putcNewline` returns the result of
`fputc('\n', stderr)`, which succeeds exactly when it returns `'\n'`
(ASCII 10). -/

structure Encoder (σ : Type) where
  arrayStart : σ → Int × σ
  arrayLength : σ → Nat → Int × σ
  emitUint : σ → Nat → Int × σ
  arrayEnd : σ → Int × σ
  terminate : σ → Int × σ
  putcNewline : σ → Int × σ

/-- The registry walk inside `prof_dump`:
```c
prof_node_t *function = prof_list;
while (function != NULL) {
    err = cbor64_array_length(&streamer, 2);
    if (err != 0) return err;
    err = cbor64_uint(&streamer, (uintptr_t)function->fn);
    if (err != 0) return err;
    err = cbor64_uint(&streamer, function->cycle_count);
    if (err != 0) return err;
    function->cycle_count = 0;
    function = function->next;
}
```
Returns the status code, the final encoder state, and the final memory. -/
def dumpWalk {σ : Type} (E : Encoder σ) :
    List Nat → σ → (Nat → ProfNode) → Int × σ × (Nat → ProfNode)
  | [], st, mem => (0, st, mem)
  | na :: rest, st, mem =>
    let r1 := E.arrayLength st 2
    if r1.1 ≠ 0 then (r1.1, r1.2, mem)
    else
      let r2 := E.emitUint r1.2 (mem na).fn
      if r2.1 ≠ 0 then (r2.1, r2.2, mem)
      else
        let r3 := E.emitUint r2.2 (mem na).cycle_count
        if r3.1 ≠ 0 then (r3.1, r3.2, mem)
        else
          let mem1 := fun a => if a = na then
              { mem a with cycle_count := 0 } else mem a
          dumpWalk E rest r3.2 mem1

/-- `prof_dump()`:  start the array, walk the registry, end the array,
terminate the base64 stream, write the final newline.  (The unchecked
`fputs("PROFILE DUMP:\n", stderr)` has no effect on the profiler state
or the status code and is absorbed into the encoder state.) -/
def prof_dump {σ : Type} (E : Encoder σ) (st : σ) (s : ProfState) :
    Int × σ × ProfState :=
  let r0 := E.arrayStart st
  if r0.1 ≠ 0 then (r0.1, r0.2, s)
  else
    let w := dumpWalk E s.registry r0.2 s.node
    let s1 : ProfState := { s with node := w.2.2 }
    if w.1 ≠ 0 then (w.1, w.2.1, s1)
    else
      let r4 := E.arrayEnd w.2.1
      if r4.1 ≠ 0 then (r4.1, r4.2, s1)
      else
        let r5 := E.terminate r4.2
        if r5.1 ≠ 0 then (r5.1, r5.2, s1)
        else
          let r6 := E.putcNewline r5.2
          if r6.1 ≠ 10 then (-1, r6.2, s1)
          else (0, r6.2, s1)

/-- Output tokens recorded by the always-succeeding tracing encoder. -/
inductive Tok where
  | arrayStart
  | arrayLength (n : Nat)
  | uint (n : Nat)
  | arrayEnd
  | terminate
  | newline
  deriving Repr, DecidableEq

/-- An encoder whose writes always succeed and record what was emitted. -/
def listEncoder : Encoder (List Tok) :=
  { arrayStart := fun st => (0, st ++ [.arrayStart])
    arrayLength := fun st n => (0, st ++ [.arrayLength n])
    emitUint := fun st n => (0, st ++ [.uint n])
    arrayEnd := fun st => (0, st ++ [.arrayEnd])
    terminate := fun st => (0, st ++ [.terminate])
    putcNewline := fun st => (10, st ++ [.newline]) }

/-- An encoder whose state counts the primitive calls made so far and
whose `k`-th call (0-based) fails with status code `e`; every other
call succeeds.  Models a write failure at an arbitrary point of the
dump. -/
def failEncoder (k : Nat) (e : Int) : Encoder Nat :=
  { arrayStart := fun st => (if st = k then e else 0, st + 1)
    arrayLength := fun st _ => (if st = k then e else 0, st + 1)
    emitUint := fun st _ => (if st = k then e else 0, st + 1)
    arrayEnd := fun st => (if st = k then e else 0, st + 1)
    terminate := fun st => (if st = k then e else 0, st + 1)
    putcNewline := fun st => (if st = k then e else 10, st + 1) }

/-! ## The lock-free publish loop, concretely

`ProfState.registry` abstracts the linked list.  For the claims about
`publish` itself the list memory is modelled concretely: `head` is
`prof_list`, `nxt` gives each node's `next` field, and `tail` records
where `prof_list_tail` points (`none` for `&prof_list`, `some a` for
`&a->next`). -/

structure LL where
  head : Option Nat
  nxt : Nat → Option Nat
  tail : Option Nat

/-- Read `*prof_list_tail`. -/
def LL.derefTail (ll : LL) : Option Nat :=
  match ll.tail with
  | none => ll.head
  | some a => ll.nxt a

/-- Write `*prof_list_tail = v`. -/
def LL.setTail (ll : LL) (v : Option Nat) : LL :=
  match ll.tail with
  | none => { ll with head := v }
  | some a => { ll with nxt := fun x => if x = a then v else ll.nxt x }

/-- The publish loop of `__cyg_profile_func_enter`:
```c
prof_node_t *insert = node;
while (insert != NULL) {
    prof_node_t *tail = __atomic_exchange_n(prof_list_tail, insert, __ATOMIC_SEQ_CST);
    prof_list_tail = &node->next;
    insert = tail;
}
```
`fuel` bounds the number of iterations so the function is total;
`none` means the fuel ran out (the loop would have iterated further). -/
def publishLoop : Nat → LL → Nat → Option Nat → Option LL
  | _, ll, _, none => some ll
  | 0, _, _, some _ => none
  | fuel + 1, ll, node, some ins =>
    let old := ll.derefTail
    let ll1 := ll.setTail (some ins)
    let ll2 : LL := { ll1 with tail := some node }
    publishLoop fuel ll2 node old

/-- `publish node` as executed sequentially: enter the loop with
`insert = node`; fuel 2 suffices for one iteration plus the exit test. -/
def publish (ll : LL) (node : Nat) : Option LL :=
  publishLoop 2 ll node (some node)

/-- The chain of nodes reachable from pointer `p` by following the
link function `nxt` is exactly the list `L`. -/
def Chain (nxt : Nat → Option Nat) : Option Nat → List Nat → Prop
  | none, [] => True
  | none, _ :: _ => False
  | some _, [] => False
  | some a, b :: rest => a = b ∧ Chain nxt (nxt a) rest

/-- `ll` is a well-formed representation of the list `L` of published
nodes: the chain from the head is `L`, the tail pointer points at the
last node's `next` field (or at `prof_list` when `L` is empty), and the
tail slot is `NULL`. -/
def Represents (ll : LL) (L : List Nat) : Prop :=
  Chain ll.nxt ll.head L ∧
  (match L.getLast? with
   | none => ll.tail = none
   | some a => ll.tail = some a) ∧
  ll.derefTail = none

/-- Publish each node of `ns` in order (first-time registrations). -/
def publishAll (ll : LL) : List Nat → Option LL
  | [] => some ll
  | n :: rest =>
    match publish ll n with
    | none => none
    | some ll1 => publishAll ll1 rest

/-- The empty registry: `prof_list = NULL`, all `next` fields `NULL`,
`prof_list_tail = &prof_list`. -/
def emptyLL : LL := { head := none, nxt := fun _ => none, tail := none }

/-- A concrete state used by witnesses and counterexamples: one
registered node (the node of the function at address 100, which
`node_from_fn` places at address 64) currently on top of the stack,
with baseline 5 and an accumulated count of 11. -/
def witnessState : ProfState :=
  { registry := [64]
    node := fun a => if a = 64 then
        { magic := PROFILE_MAGIC, cycle_count := 11, fn := 100 }
      else { magic := 0, cycle_count := 0, fn := 0 }
    previous_cycles := 5
    call_stack_depth := 1
    call_stack := fun _ => 64 }

/-- A concrete state with a two-node registry, used by witnesses:
the functions at addresses 100 and 200 own the nodes at 64 and 160. -/
def witnessState2 : ProfState :=
  { registry := [64, 160]
    node := fun a =>
      if a = 64 then { magic := PROFILE_MAGIC, cycle_count := 11, fn := 100 }
      else if a = 160 then { magic := PROFILE_MAGIC, cycle_count := 22, fn := 200 }
      else { magic := 0, cycle_count := 0, fn := 0 }
    previous_cycles := 5
    call_stack_depth := 0
    call_stack := fun _ => 0 }

/-! ## Basic lemmas about the embedded operations -/

theorem registerNode_depth (fn : Nat) (s : ProfState) :
    (registerNode fn s).call_stack_depth = s.call_stack_depth := by
  unfold registerNode; dsimp only; split <;> rfl

theorem registerNode_stack (fn : Nat) (s : ProfState) :
    (registerNode fn s).call_stack = s.call_stack := by
  unfold registerNode; dsimp only; split <;> rfl

theorem registerNode_prev (fn : Nat) (s : ProfState) :
    (registerNode fn s).previous_cycles = s.previous_cycles := by
  unfold registerNode; dsimp only; split <;> rfl

theorem stackIndex_eq_min (d : Nat) :
    stackIndex d = min (d - 1) (ENTRY_STACK_SIZE - 1) := by
  simp only [stackIndex, ENTRY_STACK_SIZE]
  split <;> omega

theorem usub_of_le (a b : Nat) (hba : b ≤ a) (ha : a < U64) :
    usub a b = a - b := by
  have hb : b < U64 := lt_of_le_of_lt hba ha
  simp only [usub, Nat.mod_eq_of_lt ha, Nat.mod_eq_of_lt hb, U64] at *
  omega

theorem clamped_add_of_le (a b : Nat) (h : a + b ≤ UINT64_MAX) :
    clamped_add a b = a + b := by
  simp only [clamped_add, UINT64_MAX] at *
  split <;> omega

/-- Claim C4 helper: the saturating accumulator is addition clamped at
the maximum representable value. -/
theorem clamped_add_eq_min (a b : Nat) (ha : a ≤ UINT64_MAX) :
    clamped_add a b = min (a + b) UINT64_MAX := by
  simp only [clamped_add, UINT64_MAX, min_def] at *
  split_ifs <;> omega

/-! ## Theorems for the claims -/

/-- Claim C4: for all unsigned 64-bit values `total` and `delta`, the
saturating accumulator `clamped_add` returns `total + delta` when
`MAX − total ≥ delta` and returns `MAX` otherwise (pinning at the
maximum representable value instead of wrapping); in particular
`clamped_add MAX 1 = MAX` and `clamped_add (MAX − 5) 3 = MAX − 2`. -/
theorem clamped_add_spec (total delta : Nat)
    (htotal : total ≤ UINT64_MAX) (hdelta : delta ≤ UINT64_MAX) :
    (UINT64_MAX - total ≥ delta → clamped_add total delta = total + delta) ∧
    (UINT64_MAX - total < delta → clamped_add total delta = UINT64_MAX) ∧
    clamped_add total delta = min (total + delta) UINT64_MAX ∧
    clamped_add UINT64_MAX 1 = UINT64_MAX ∧
    clamped_add (UINT64_MAX - 5) 3 = UINT64_MAX - 2 := by
  refine ⟨?_, ?_, clamped_add_eq_min total delta htotal, ?_, ?_⟩
  · intro h
    simp only [clamped_add, UINT64_MAX] at *
    split <;> omega
  · intro h
    simp only [clamped_add, UINT64_MAX] at *
    split <;> omega
  · simp [clamped_add, UINT64_MAX]
  · simp [clamped_add, UINT64_MAX]

/-- Witness for claim C4 at `total = 7`, `delta = 9`. -/
theorem clamped_add_spec_witness :
    clamped_add 7 9 = 7 + 9 ∧ clamped_add UINT64_MAX 1 = UINT64_MAX :=
  ⟨(clamped_add_spec 7 9 (by decide) (by decide)).1 (by decide),
   (clamped_add_spec 7 9 (by decide) (by decide)).2.2.2.1⟩

/-- Claim C2: on every entry event with the runtime ready: if the depth
is positive, the cycles since the previous baseline are added
(saturating) to the node at stack index `depth − 1`, clamped to
`ENTRY_STACK_SIZE − 1` when the depth exceeds capacity; the baseline is
then set to the current reading; the entered node is stored into the
stack slot exactly when the depth is below capacity; and the depth is
incremented by one in every case.  (`registerNode fn s` is the state
after the node-initialisation block, which precedes the attribution;
it does not change the stack, depth or baseline.) -/
theorem funcEnter_spec (s : ProfState) (fn cs c : Nat) :
    (funcEnter true fn cs c s).call_stack_depth = s.call_stack_depth + 1 ∧
    (funcEnter true fn cs c s).previous_cycles = c % U64 ∧
    (s.call_stack_depth < ENTRY_STACK_SIZE →
      (funcEnter true fn cs c s).call_stack s.call_stack_depth = node_from_fn fn) ∧
    (ENTRY_STACK_SIZE ≤ s.call_stack_depth →
      (funcEnter true fn cs c s).call_stack = s.call_stack) ∧
    (∀ i, i ≠ s.call_stack_depth →
      (funcEnter true fn cs c s).call_stack i = s.call_stack i) ∧
    (0 < s.call_stack_depth →
      ((funcEnter true fn cs c s).node
          (s.call_stack (min (s.call_stack_depth - 1) (ENTRY_STACK_SIZE - 1)))).cycle_count =
        clamped_add
          (((registerNode fn s).node
              (s.call_stack (min (s.call_stack_depth - 1) (ENTRY_STACK_SIZE - 1)))).cycle_count)
          (usub c s.previous_cycles)) ∧
    (0 < s.call_stack_depth →
      ∀ a, a ≠ s.call_stack (min (s.call_stack_depth - 1) (ENTRY_STACK_SIZE - 1)) →
        (funcEnter true fn cs c s).node a = (registerNode fn s).node a) ∧
    (s.call_stack_depth = 0 →
      (funcEnter true fn cs c s).node = (registerNode fn s).node) := by
  refine ⟨?_, ?_, ?_, ?_, ?_, ?_, ?_, ?_⟩ <;>
    simp only [funcEnter, Bool.not_true, Bool.false_eq_true, if_false,
      registerNode_depth, registerNode_stack, registerNode_prev, stackIndex_eq_min]
  · intro h
    rw [if_pos h]
    simp
  · intro h
    rw [if_neg (by omega)]
  · intro i hi
    split
    · simp [hi]
    · rfl
  · intro h
    rw [if_pos h]
    simp
  · intro h a ha
    rw [if_pos h]
    simp [ha]
  · intro h
    rw [if_neg (by omega)]

/-- Witness for claim C2 at a concrete state and event. -/
theorem funcEnter_spec_witness :
    (funcEnter true 100 55 7 witnessState).call_stack_depth =
      witnessState.call_stack_depth + 1 ∧
    ((funcEnter true 100 55 7 witnessState).node
        (witnessState.call_stack
          (min (witnessState.call_stack_depth - 1) (ENTRY_STACK_SIZE - 1)))).cycle_count =
      clamped_add
        (((registerNode 100 witnessState).node
            (witnessState.call_stack
              (min (witnessState.call_stack_depth - 1) (ENTRY_STACK_SIZE - 1)))).cycle_count)
        (usub 7 witnessState.previous_cycles) :=
  ⟨(funcEnter_spec witnessState 100 55 7).1,
   (funcEnter_spec witnessState 100 55 7).2.2.2.2.2.1 (by decide)⟩

/-- Claim C3: every exit event is a no-op when the runtime is not ready
or the depth is zero (unmatched exits are silently ignored); otherwise
it adds the cycles elapsed since the last baseline, via saturating
addition, to the node at stack index `depth − 1` (clamped to
`ENTRY_STACK_SIZE − 1` when the depth exceeds capacity), updates the
baseline to the current reading, and decrements the depth by exactly
one. -/
theorem funcExit_spec (s : ProfState) (c : Nat) (ready : Bool) :
    ((ready = false ∨ s.call_stack_depth = 0) → funcExit ready c s = s) ∧
    (ready = true → 0 < s.call_stack_depth →
      (funcExit ready c s).call_stack_depth = s.call_stack_depth - 1 ∧
      (funcExit ready c s).previous_cycles = c % U64 ∧
      ((funcExit ready c s).node
          (s.call_stack (min (s.call_stack_depth - 1) (ENTRY_STACK_SIZE - 1)))).cycle_count =
        clamped_add
          ((s.node
              (s.call_stack (min (s.call_stack_depth - 1) (ENTRY_STACK_SIZE - 1)))).cycle_count)
          (usub c s.previous_cycles) ∧
      (∀ a, a ≠ s.call_stack (min (s.call_stack_depth - 1) (ENTRY_STACK_SIZE - 1)) →
        (funcExit ready c s).node a = s.node a) ∧
      (funcExit ready c s).call_stack = s.call_stack ∧
      (funcExit ready c s).registry = s.registry) := by
  constructor
  · intro h
    unfold funcExit
    rw [if_pos]
    rcases h with h | h <;> simp [h]
  · intro hr hd
    unfold funcExit
    rw [if_neg (by simp [hr]; omega), stackIndex_eq_min]
    refine ⟨rfl, rfl, by simp, ?_, rfl, rfl⟩
    intro a ha
    simp [ha]

/-- Witness for claim C3 at a concrete state and event. -/
theorem funcExit_spec_witness :
    ((funcExit false 3 witnessState) = witnessState) ∧
    ((funcExit true 7 witnessState).node
        (witnessState.call_stack
          (min (witnessState.call_stack_depth - 1) (ENTRY_STACK_SIZE - 1)))).cycle_count =
      clamped_add
        ((witnessState.node
            (witnessState.call_stack
              (min (witnessState.call_stack_depth - 1) (ENTRY_STACK_SIZE - 1)))).cycle_count)
        (usub 7 witnessState.previous_cycles) :=
  ⟨(funcExit_spec witnessState 3 false).1 (Or.inl rfl),
   ((funcExit_spec witnessState 7 true).2 rfl (by decide)).2.2.1⟩

/-- Claim C10: the stack index used for attribution is always within
the array bounds whenever the depth is positive (the only situation in
which the code reads the stack); the only written slot is below
`ENTRY_STACK_SIZE`; and the depth is decremented only when it is
positive, so it never underflows. -/
theorem stack_access_safe :
    (∀ d, 0 < d → stackIndex d < ENTRY_STACK_SIZE) ∧
    (∀ (s : ProfState) ready fn cs c i,
      (funcEnter ready fn cs c s).call_stack i ≠ s.call_stack i →
      i < ENTRY_STACK_SIZE) ∧
    (∀ (s : ProfState) ready c, s.call_stack_depth = 0 →
      (funcExit ready c s).call_stack_depth = 0) ∧
    (∀ (s : ProfState) ready c, 0 < s.call_stack_depth →
      (funcExit ready c s).call_stack_depth = s.call_stack_depth - 1 ∨
      funcExit ready c s = s) := by
  refine ⟨?_, ?_, ?_, ?_⟩
  · intro d hd
    simp only [stackIndex, ENTRY_STACK_SIZE]
    split <;> omega
  · intro s ready fn cs c i hi
    by_contra hge
    apply hi
    unfold funcEnter
    split
    · rfl
    · simp only [registerNode_depth, registerNode_stack]
      split
      · have : i ≠ s.call_stack_depth := by omega
        simp [this]
      · rfl
  · intro s ready c h
    simp [funcExit, h]
  · intro s ready c h
    cases ready with
    | false => right; simp [funcExit]
    | true =>
      left
      unfold funcExit
      rw [if_neg (by simp; omega)]

/-- Witness for claim C10. -/
theorem stack_access_safe_witness :
    stackIndex 500 < ENTRY_STACK_SIZE ∧
    ((funcExit true 9 witnessState).call_stack_depth =
        witnessState.call_stack_depth - 1 ∨
      funcExit true 9 witnessState = witnessState) :=
  ⟨stack_access_safe.1 500 (by decide),
   stack_access_safe.2.2.2 witnessState true 9 (by decide)⟩

/-- The delta computation as claim C9 describes it (for comparison with
the code): a saturating subtraction of the baseline from the current
reading, pinning at zero instead of wrapping. -/
def saturating_sub (a b : Nat) : Nat := a - b

/-- Counterexample to claim C9: the delta `counter - previous_cycles`
is computed with wrapping `uint64_t` subtraction, not with saturating
arithmetic.  At a state whose baseline is 5, an exit event with counter
reading 3 attributes `2^64 - 2` cycles (the wrapped difference) to the
node on top of the stack — `clamped_add 11 (2^64 - 2)` then saturates
to `UINT64_MAX` — instead of adding the saturated delta
`saturating_sub 3 5 = 0`, which would leave the count at 11. -/
theorem delta_not_saturating_cex :
    ((funcExit true 3 witnessState).node 64).cycle_count ≠
      clamped_add ((witnessState.node 64).cycle_count) (saturating_sub 3 5) ∧
    ((funcExit true 3 witnessState).node 64).cycle_count = 18446744073709551615 ∧
    clamped_add ((witnessState.node 64).cycle_count) (saturating_sub 3 5) = 11 := by
  refine ⟨?_, ?_, ?_⟩ <;> decide

/-- Claim C9 (amended): the cycle-accounting delta between two
successive hardware-counter reads is computed with wrapping (mod
`2^64`) `uint64_t` subtraction of the recorded baseline from the
current reading; saturation applies when the delta is accumulated into
the node at the top of the call stack, via `clamped_add`.  This holds
for both the exit path and the entry path (on entry the base count is
the one after the node-initialisation block, `registerNode`). -/
theorem delta_wrapping_saturating_apply (s : ProfState) (fn cs c : Nat)
    (hd : 0 < s.call_stack_depth) :
    ((funcExit true c s).node (s.call_stack (stackIndex s.call_stack_depth))).cycle_count =
      clamped_add ((s.node (s.call_stack (stackIndex s.call_stack_depth))).cycle_count)
        (usub c s.previous_cycles) ∧
    ((funcEnter true fn cs c s).node
        ((registerNode fn s).call_stack (stackIndex s.call_stack_depth))).cycle_count =
      clamped_add
        (((registerNode fn s).node
            ((registerNode fn s).call_stack (stackIndex s.call_stack_depth))).cycle_count)
        (usub c s.previous_cycles) := by
  constructor
  · unfold funcExit
    rw [if_neg (by simp; omega)]
    simp
  · unfold funcEnter
    simp only [Bool.not_true, Bool.false_eq_true, if_false, registerNode_depth,
      registerNode_prev]
    rw [if_pos hd]
    simp

/-- Witness for the amended claim C9 at a concrete state and event. -/
theorem delta_wrapping_saturating_apply_witness :
    ((funcExit true 3 witnessState).node
        (witnessState.call_stack (stackIndex witnessState.call_stack_depth))).cycle_count =
      clamped_add
        ((witnessState.node
            (witnessState.call_stack (stackIndex witnessState.call_stack_depth))).cycle_count)
        (usub 3 witnessState.previous_cycles) :=
  (delta_wrapping_saturating_apply witnessState 100 55 3 (by decide)).1

/-! ## The dump/reset protocol: success path -/

theorem flatMap_ext {α β : Type} (l : List α) (f g : α → List β)
    (h : ∀ a ∈ l, f a = g a) : l.flatMap f = l.flatMap g := by
  induction l with
  | nil => rfl
  | cons x xs ih =>
    simp only [List.flatMap_cons]
    rw [h x (by simp), ih (fun a ha => h a (by simp [ha]))]

/-- The record emitted for one node during a dump. -/
def nodeRecord (mem : Nat → ProfNode) (a : Nat) : List Tok :=
  [Tok.arrayLength 2, Tok.uint (mem a).fn, Tok.uint (mem a).cycle_count]

@[simp] theorem listEncoder_arrayStart (st : List Tok) :
    listEncoder.arrayStart st = (0, st ++ [Tok.arrayStart]) := rfl

@[simp] theorem listEncoder_arrayLength (st : List Tok) (n : Nat) :
    listEncoder.arrayLength st n = (0, st ++ [Tok.arrayLength n]) := rfl

@[simp] theorem listEncoder_emitUint (st : List Tok) (n : Nat) :
    listEncoder.emitUint st n = (0, st ++ [Tok.uint n]) := rfl

@[simp] theorem listEncoder_arrayEnd (st : List Tok) :
    listEncoder.arrayEnd st = (0, st ++ [Tok.arrayEnd]) := rfl

@[simp] theorem listEncoder_terminate (st : List Tok) :
    listEncoder.terminate st = (0, st ++ [Tok.terminate]) := rfl

@[simp] theorem listEncoder_putcNewline (st : List Tok) :
    listEncoder.putcNewline st = (10, st ++ [Tok.newline]) := rfl

/-- The registry walk with the always-succeeding tracing encoder:
emits one two-element record per node, in registry order, and resets
exactly the visited nodes' counts. -/
theorem dumpWalk_listEncoder (L : List Nat) : ∀ (st : List Tok) (mem : Nat → ProfNode),
    L.Nodup →
    dumpWalk listEncoder L st mem =
      (0, st ++ L.flatMap (nodeRecord mem),
       fun a => if a ∈ L then { mem a with cycle_count := 0 } else mem a) := by
  induction L with
  | nil =>
    intro st mem _
    simp [dumpWalk]
  | cons na rest ih =>
    intro st mem hnd
    rw [List.nodup_cons] at hnd
    simp only [dumpWalk, listEncoder_arrayLength, listEncoder_emitUint, ne_eq,
      not_true_eq_false, if_false, not_false_eq_true, if_true]
    rw [ih _ _ hnd.2]
    refine Prod.ext rfl (Prod.ext ?_ ?_)
    · show st ++ [Tok.arrayLength 2] ++ [Tok.uint (mem na).fn] ++
          [Tok.uint (mem na).cycle_count] ++ _ = _
      rw [flatMap_ext rest _ (nodeRecord mem) (fun a ha => by
        simp only [nodeRecord]
        have : a ≠ na := fun h => hnd.1 (h ▸ ha)
        simp [this])]
      simp [nodeRecord, List.flatMap_cons]
    · funext a
      by_cases hna : a = na
      · subst hna
        by_cases hr : a ∈ rest
        · exact absurd hr hnd.1
        · simp [hr]
      · by_cases hr : a ∈ rest <;> simp [hna, hr]

/-- Claim C5: a successful dump walks the registry from its head,
emits for each node a fixed-length two-element record
`(identity, cycle_count)`, and immediately resets that node's count to
zero; a second dump with no intervening activity therefore emits
all-zero counts (dumps are windowed, not cumulative). -/
theorem prof_dump_spec (s : ProfState) (hnd : s.registry.Nodup) :
    (prof_dump listEncoder [] s).1 = 0 ∧
    (prof_dump listEncoder [] s).2.1 =
      [Tok.arrayStart] ++ s.registry.flatMap (nodeRecord s.node) ++
        [Tok.arrayEnd, Tok.terminate, Tok.newline] ∧
    (prof_dump listEncoder [] s).2.2.registry = s.registry ∧
    (∀ a ∈ s.registry,
      ((prof_dump listEncoder [] s).2.2.node a).cycle_count = 0 ∧
      ((prof_dump listEncoder [] s).2.2.node a).fn = (s.node a).fn ∧
      ((prof_dump listEncoder [] s).2.2.node a).magic = (s.node a).magic) ∧
    (∀ a, a ∉ s.registry → (prof_dump listEncoder [] s).2.2.node a = s.node a) ∧
    (prof_dump listEncoder [] (prof_dump listEncoder [] s).2.2).2.1 =
      [Tok.arrayStart] ++
        s.registry.flatMap (fun a => [Tok.arrayLength 2, Tok.uint (s.node a).fn, Tok.uint 0]) ++
        [Tok.arrayEnd, Tok.terminate, Tok.newline] := by
  have hwalk := dumpWalk_listEncoder s.registry [Tok.arrayStart] s.node hnd
  have hwalk2 := dumpWalk_listEncoder s.registry [Tok.arrayStart]
    (fun a => if a ∈ s.registry then { s.node a with cycle_count := 0 } else s.node a) hnd
  refine ⟨?_, ?_, ?_, ?_, ?_, ?_⟩
  · simp [prof_dump, hwalk]
  · simp [prof_dump, hwalk]
  · simp [prof_dump, hwalk]
  · intro a ha
    simp [prof_dump, hwalk, ha]
  · intro a ha
    simp [prof_dump, hwalk, ha]
  · simp only [prof_dump, listEncoder_arrayStart, List.nil_append, ne_eq, hwalk]
    norm_num
    simp only [hwalk2]
    norm_num
    rw [flatMap_ext s.registry _
      (fun a => [Tok.arrayLength 2, Tok.uint (s.node a).fn, Tok.uint 0])
      (fun a ha => by simp [nodeRecord, ha])]

/-- Witness for claim C5 at the concrete state `witnessState`. -/
theorem prof_dump_spec_witness :
    (prof_dump listEncoder [] witnessState).1 = 0 ∧
    (prof_dump listEncoder [] witnessState).2.1 =
      [Tok.arrayStart] ++ witnessState.registry.flatMap (nodeRecord witnessState.node) ++
        [Tok.arrayEnd, Tok.terminate, Tok.newline] :=
  ⟨(prof_dump_spec witnessState (by decide)).1,
   (prof_dump_spec witnessState (by decide)).2.1⟩

/-! ## The dump/reset protocol: failure path -/

@[simp] theorem failEncoder_arrayStart (k : Nat) (e : Int) (st : Nat) :
    (failEncoder k e).arrayStart st = (if st = k then e else 0, st + 1) := rfl

@[simp] theorem failEncoder_arrayLength (k : Nat) (e : Int) (st n : Nat) :
    (failEncoder k e).arrayLength st n = (if st = k then e else 0, st + 1) := rfl

@[simp] theorem failEncoder_emitUint (k : Nat) (e : Int) (st n : Nat) :
    (failEncoder k e).emitUint st n = (if st = k then e else 0, st + 1) := rfl

/-- The registry walk aborted by an encoder failure: if the `k`-th
primitive call (0-based, counted by the encoder state `st`) fails
while the walk still has nodes to emit, the walk returns the failing
status code immediately; the nodes whose three writes all happened
before the failure are reset, and every other node is untouched. -/
theorem dumpWalk_fail (e : Int) (he : e ≠ 0) (k : Nat) :
    ∀ (L : List Nat) (st : Nat) (mem : Nat → ProfNode),
      st ≤ k → k < st + 3 * L.length →
      dumpWalk (failEncoder k e) L st mem =
        (e, k + 1,
         fun a => if a ∈ L.take ((k - st) / 3) then { mem a with cycle_count := 0 }
           else mem a) := by
  intro L
  induction L with
  | nil =>
    intro st mem h1 h2
    simp only [List.length_nil] at h2
    omega
  | cons na rest ih =>
    intro st mem h1 h2
    by_cases hk0 : st = k
    · subst hk0
      simp [dumpWalk, he, Nat.sub_self]
    · by_cases hk1 : st + 1 = k
      · simp only [dumpWalk, failEncoder_arrayLength, failEncoder_emitUint,
          if_neg hk0, if_pos hk1]
        simp only [ne_eq, not_true_eq_false, if_false, not_false_eq_true]
        simp [he, show (k - st) / 3 = 0 by omega]
        omega
      · by_cases hk2 : st + 1 + 1 = k
        · simp only [dumpWalk, failEncoder_arrayLength, failEncoder_emitUint,
            if_neg hk0, if_neg hk1, if_pos hk2]
          simp [he, show (k - st) / 3 = 0 by omega]
          omega
        · have hk3 : st + 3 ≤ k := by omega
          simp only [dumpWalk, failEncoder_arrayLength, failEncoder_emitUint,
            if_neg hk0, if_neg hk1, if_neg hk2]
          simp only [ne_eq, not_true_eq_false, if_false, not_false_eq_true,
            reduceCtorEq]
          rw [ih (st + 1 + 1 + 1) _ (by omega)
            (by simp only [List.length_cons] at h2 ⊢; omega)]
          refine Prod.ext rfl (Prod.ext rfl ?_)
          funext a
          have htk : (k - st) / 3 = (k - (st + 1 + 1 + 1)) / 3 + 1 := by omega
          rw [htk, List.take_succ_cons]
          by_cases hna : a = na
          · subst hna
            by_cases hr : a ∈ rest.take ((k - (st + 1 + 1 + 1)) / 3) <;> simp [hr]
          · by_cases hr : a ∈ rest.take ((k - (st + 1 + 1 + 1)) / 3) <;>
              simp [hna, hr]

/-- Claim C6: if an encoder write fails during the registry walk of a
dump, `prof_dump` returns that step's nonzero status code immediately
without completing the walk (the encoder made exactly `k + 1` calls);
every node fully processed before the failing step has its count reset
to zero, and the node being emitted at the failure and all nodes after
it, as well as all nodes outside the registry, keep their state
unchanged; the registry itself is unmodified.  The failing call index
`k` satisfies `1 ≤ k < 1 + 3·N` (call 0 is the successful array
header), and `(k − 1) / 3` is the position of the node being emitted
when the failure hits. -/
theorem prof_dump_fail_spec (s : ProfState) (k : Nat) (e : Int) (he : e ≠ 0)
    (hnd : s.registry.Nodup) (hk1 : 1 ≤ k) (hk2 : k < 1 + 3 * s.registry.length) :
    (prof_dump (failEncoder k e) 0 s).1 = e ∧
    (prof_dump (failEncoder k e) 0 s).2.1 = k + 1 ∧
    (prof_dump (failEncoder k e) 0 s).2.2.registry = s.registry ∧
    (∀ a ∈ s.registry.take ((k - 1) / 3),
      ((prof_dump (failEncoder k e) 0 s).2.2.node a).cycle_count = 0 ∧
      ((prof_dump (failEncoder k e) 0 s).2.2.node a).fn = (s.node a).fn ∧
      ((prof_dump (failEncoder k e) 0 s).2.2.node a).magic = (s.node a).magic) ∧
    (∀ a ∈ s.registry.drop ((k - 1) / 3),
      (prof_dump (failEncoder k e) 0 s).2.2.node a = s.node a) ∧
    (∀ a, a ∉ s.registry → (prof_dump (failEncoder k e) 0 s).2.2.node a = s.node a) := by
  have hwalk := dumpWalk_fail e he k s.registry 1 s.node hk1 (by omega)
  have hk0 : ¬((0 : Nat) = k) := by omega
  refine ⟨?_, ?_, ?_, ?_, ?_, ?_⟩
  · simp [prof_dump, hwalk, hk0, he]
  · simp [prof_dump, hwalk, hk0, he]
  · simp [prof_dump, hwalk, hk0, he]
  · intro a ha
    simp [prof_dump, hwalk, hk0, he, ha]
  · intro a ha
    have hnin : a ∉ s.registry.take ((k - 1) / 3) := by
      intro hmem
      exact List.disjoint_take_drop hnd (le_refl ((k - 1) / 3)) hmem ha
    simp [prof_dump, hwalk, hk0, he, hnin]
  · intro a ha
    have hnin : a ∉ s.registry.take ((k - 1) / 3) :=
      fun hmem => ha (List.mem_of_mem_take hmem)
    simp [prof_dump, hwalk, hk0, he, hnin]

/-- Witness for claim C6: dump of a two-node registry failing with
status 7 at the fifth encoder call (the second node's record header). -/
theorem prof_dump_fail_spec_witness :
    (prof_dump (failEncoder 4 7) 0 witnessState2).1 = 7 ∧
    (∀ a ∈ witnessState2.registry.take 1,
      ((prof_dump (failEncoder 4 7) 0 witnessState2).2.2.node a).cycle_count = 0 ∧
      ((prof_dump (failEncoder 4 7) 0 witnessState2).2.2.node a).fn =
        (witnessState2.node a).fn ∧
      ((prof_dump (failEncoder 4 7) 0 witnessState2).2.2.node a).magic =
        (witnessState2.node a).magic) ∧
    (∀ a ∈ witnessState2.registry.drop 1,
      (prof_dump (failEncoder 4 7) 0 witnessState2).2.2.node a =
        witnessState2.node a) :=
  ⟨(prof_dump_fail_spec witnessState2 4 7 (by decide) (by decide)
      (by decide) (by decide)).1,
   (prof_dump_fail_spec witnessState2 4 7 (by decide) (by decide)
      (by decide) (by decide)).2.2.2.1,
   (prof_dump_fail_spec witnessState2 4 7 (by decide) (by decide)
      (by decide) (by decide)).2.2.2.2.1⟩

/-! ## The lock-free publish loop, sequential execution -/

/-- Extending a chain by one node: if the chain from `p` along `nxt` is
`L`, whose last node is `b` with a null link, and `nxt2` agrees with
`nxt` except that `b` now links to the fresh node `node` (whose own
link is null), then the chain from `p` along `nxt2` is `L ++ [node]`. -/
theorem chain_snoc (nxt nxt2 : Nat → Option Nat) (node b : Nat)
    (hupd : ∀ x, x ≠ b → nxt2 x = nxt x) (hb : nxt2 b = some node)
    (hnode : nxt2 node = none) :
    ∀ (L : List Nat) (p : Option Nat), Chain nxt p L → L.getLast? = some b →
      nxt b = none → node ∉ L → Chain nxt2 p (L ++ [node]) := by
  intro L
  induction L with
  | nil =>
    intro p _ hlast
    simp at hlast
  | cons x rest ih =>
    intro p hch hlast hnb hni
    cases p with
    | none => exact (hch : False).elim
    | some a =>
      obtain ⟨rfl, hrest⟩ := (hch : a = x ∧ Chain nxt (nxt a) rest)
      cases rest with
      | nil =>
        have hxb : a = b := by simpa using hlast
        subst hxb
        exact ⟨rfl, by rw [hb]; exact ⟨rfl, by rw [hnode]; trivial⟩⟩
      | cons y rest2 =>
        have hxb : a ≠ b := by
          intro h
          subst h
          cases hy : nxt a with
          | none => rw [hy] at hrest; exact hrest.elim
          | some z => rw [hnb] at hy; exact Option.noConfusion hy
        refine ⟨rfl, ?_⟩
        rw [hupd a hxb]
        have hlast2 : (y :: rest2).getLast? = some b := by
          rwa [List.getLast?_cons_cons] at hlast
        have hni2 : node ∉ y :: rest2 := fun h => hni (List.mem_cons_of_mem _ h)
        exact ih (nxt a) hrest hlast2 hnb hni2

/-- Sequential behaviour of `publish`: when the registry invariant
holds (tail slot is null) and the node is fresh, the chained-exchange
loop performs a single exchange, finds the exchanged-out previous value
null, terminates, and the node is appended at the tail; the links of
all nodes outside the old list are untouched. -/
theorem publish_ok (ll : LL) (L : List Nat) (node : Nat)
    (hrep : Represents ll L) (hfresh : ll.nxt node = none) (hni : node ∉ L) :
    ∃ ll2, publish ll node = some ll2 ∧ Represents ll2 (L ++ [node]) ∧
      (∀ x, x ∉ L → ll2.nxt x = ll.nxt x) := by
  obtain ⟨hch, htail, hderef⟩ := hrep
  cases L with
  | nil =>
    have hhead : ll.head = none := by
      cases hh : ll.head with
      | none => rfl
      | some a => rw [hh] at hch; exact hch.elim
    have htl : ll.tail = none := htail
    refine ⟨{ head := some node, nxt := ll.nxt, tail := some node }, ?_, ?_, ?_⟩
    · show publishLoop 2 ll node (some node) = _
      simp only [publishLoop]
      rw [hderef]
      simp only [publishLoop, LL.setTail, htl]
    · exact ⟨⟨rfl, by rw [hfresh]; trivial⟩, rfl, by show ll.nxt node = none; exact hfresh⟩
    · intro x _
      rfl
  | cons x rest =>
    have hlast : (x :: rest).getLast? = some ((x :: rest).getLast (by simp)) :=
      List.getLast?_eq_getLast _ _
    set b := (x :: rest).getLast (by simp) with hb
    have htl : ll.tail = some b := by rw [hlast] at htail; exact htail
    have hnb : ll.nxt b = none := by
      have : ll.derefTail = ll.nxt b := by rw [LL.derefTail, htl]
      rw [← this, hderef]
    have hbL : b ∈ x :: rest := List.getLast_mem _
    have hnode_ne_b : node ≠ b := fun h => hni (h ▸ hbL)
    refine ⟨{ head := ll.head,
              nxt := fun y => if y = b then some node else ll.nxt y,
              tail := some node }, ?_, ?_, ?_⟩
    · show publishLoop 2 ll node (some node) = _
      simp only [publishLoop]
      rw [hderef]
      simp only [publishLoop, LL.setTail, htl]
    · refine ⟨?_, ?_, ?_⟩
      · exact chain_snoc ll.nxt _ node b
          (fun y hy => by simp [hy]) (by simp) (by simp [hnode_ne_b, hfresh])
          (x :: rest) ll.head hch hlast hnb hni
      · show (match ((x :: rest) ++ [node]).getLast? with
          | none => (some node : Option Nat) = none
          | some a => (some node : Option Nat) = some a)
        rw [List.getLast?_concat]
      · show (if node = b then some node else ll.nxt node) = none
        simp [hnode_ne_b, hfresh]
    · intro y hy
      have : y ≠ b := fun h => hy (h ▸ hbL)
      simp [this]

/-- `publishAll` on a list of fresh, distinct nodes builds exactly that
list. -/
theorem publishAll_ok : ∀ (ns : List Nat) (ll : LL) (L : List Nat),
    Represents ll L → (∀ n ∈ ns, ll.nxt n = none) → (∀ n ∈ ns, n ∉ L) →
    ns.Nodup →
    ∃ ll2, publishAll ll ns = some ll2 ∧ Represents ll2 (L ++ ns) := by
  intro ns
  induction ns with
  | nil =>
    intro ll L hrep _ _ _
    exact ⟨ll, rfl, by simpa using hrep⟩
  | cons n rest ih =>
    intro ll L hrep hfresh hni hnd
    rw [List.nodup_cons] at hnd
    obtain ⟨ll1, hpub, hrep1, hnxt1⟩ :=
      publish_ok ll L n (by exact hrep) (hfresh n (by simp)) (hni n (by simp))
    obtain ⟨ll2, hpa, hrep2⟩ := ih ll1 (L ++ [n]) hrep1
      (fun m hm => by
        rw [hnxt1 m (hni m (by simp [hm]))]
        exact hfresh m (by simp [hm]))
      (fun m hm => by
        simp only [List.mem_append, List.mem_singleton]
        rintro (h | h)
        · exact hni m (by simp [hm]) h
        · exact hnd.1 (h ▸ hm))
      hnd.2
    refine ⟨ll2, ?_, by simpa using hrep2⟩
    show publishAll ll (n :: rest) = some ll2
    simp only [publishAll, hpub]
    exact hpa

/-- Claim C8: after a publish of a newly initialised node returns, the
node is reachable from the registry head following `next`, no
previously published node is lost, and the exchange loop terminates
(after a single exchange, because the exchanged-out previous value is
null in sequential execution); after `N` sequential first-time
registrations of `N` distinct functions the registry walked from its
head contains exactly those `N` nodes. -/
theorem publish_registry_spec :
    (∀ (ll : LL) (L : List Nat) (node : Nat),
      Represents ll L → ll.nxt node = none → node ∉ L →
      ∃ ll2, publish ll node = some ll2 ∧ Represents ll2 (L ++ [node]) ∧
        (∀ x, x ∉ L → ll2.nxt x = ll.nxt x)) ∧
    (∀ ns : List Nat, ns.Nodup →
      ∃ ll2, publishAll emptyLL ns = some ll2 ∧
        Chain ll2.nxt ll2.head ns) := by
  refine ⟨publish_ok, ?_⟩
  intro ns hnd
  obtain ⟨ll2, hpa, hrep⟩ := publishAll_ok ns emptyLL []
    ⟨trivial, rfl, rfl⟩ (fun _ _ => rfl) (fun _ _ => List.not_mem_nil _) hnd
  exact ⟨ll2, hpa, by simpa using hrep.1⟩

/-- Witness for claim C8: publishing the nodes 64 and 160 into an empty
registry yields a registry whose walk is exactly `[64, 160]`. -/
theorem publish_registry_spec_witness :
    ∃ ll2, publishAll emptyLL [64, 160] = some ll2 ∧
      Chain ll2.nxt ll2.head [64, 160] :=
  publish_registry_spec.2 [64, 160] (by decide)

/-! ## Registry and call-stack invariants (sequential runs) -/

/-- The sequential state invariant:
* the registry has no duplicate node addresses;
* registered nodes carry the magic marker, and vice versa;
* a registered node's storage location is determined by its `fn` field
  (`node_from_fn (node.fn) = node address`);
* every live call-stack slot holds a registered node. -/
def Inv (s : ProfState) : Prop :=
  s.registry.Nodup ∧
  (∀ a ∈ s.registry, (s.node a).magic = PROFILE_MAGIC) ∧
  (∀ a, (s.node a).magic = PROFILE_MAGIC → a ∈ s.registry) ∧
  (∀ a ∈ s.registry, node_from_fn ((s.node a).fn) = a) ∧
  (∀ i, i < min s.call_stack_depth ENTRY_STACK_SIZE → s.call_stack i ∈ s.registry)

theorem inv_initState : Inv initState := by
  refine ⟨List.nodup_nil, ?_, ?_, ?_, ?_⟩
  · intro a ha
    exact absurd ha (List.not_mem_nil a)
  · intro a ha
    exact absurd ha (by simp [initState, PROFILE_MAGIC])
  · intro a ha
    exact absurd ha (List.not_mem_nil a)
  · intro i hi
    simp [initState] at hi

theorem inv_registerNode (fn : Nat) (s : ProfState) (h : Inv s) :
    Inv (registerNode fn s) := by
  obtain ⟨h1, h2, h3, h4, h5⟩ := h
  unfold registerNode
  dsimp only
  split
  case isFalse => exact ⟨h1, h2, h3, h4, h5⟩
  case isTrue hfresh =>
    have hnin : node_from_fn fn ∉ s.registry := fun hmem => hfresh (h2 _ hmem)
    refine ⟨?_, ?_, ?_, ?_, ?_⟩
    · simpa [List.nodup_append] using ⟨h1, fun hmem => hnin hmem⟩
    · intro a ha
      by_cases hna : a = node_from_fn fn
      · simp [hna]
      · simp only [List.mem_append, List.mem_singleton] at ha
        rcases ha with ha | ha
        · simp only [if_neg hna]
          exact h2 a ha
        · exact absurd ha hna
    · intro a ha
      by_cases hna : a = node_from_fn fn
      · simp [hna]
      · simp only [if_neg hna] at ha
        exact List.mem_append_left _ (h3 a ha)
    · intro a ha
      by_cases hna : a = node_from_fn fn
      · simp [hna]
      · simp only [List.mem_append, List.mem_singleton] at ha
        rcases ha with ha | ha
        · simp only [if_neg hna]
          exact h4 a ha
        · exact absurd ha hna
    · intro i hi
      exact List.mem_append_left _ (h5 i hi)

theorem stackIndex_lt_min (d : Nat) (hd : 0 < d) :
    stackIndex d < min d ENTRY_STACK_SIZE := by
  simp only [stackIndex, ENTRY_STACK_SIZE] at *
  split <;> omega

theorem inv_funcEnter (fn cs c : Nat) (s : ProfState) (h : Inv s) :
    Inv (funcEnter true fn cs c s) := by
  have hna : node_from_fn fn ∈ (registerNode fn s).registry := by
    unfold registerNode
    dsimp only
    split
    case isTrue => exact List.mem_append_right _ (by simp)
    case isFalse hmag => exact h.2.2.1 _ (not_not.mp hmag)
  have hreg := inv_registerNode fn s h
  obtain ⟨h1, h2, h3, h4, h5⟩ := hreg
  unfold funcEnter
  simp only [Bool.not_true, Bool.false_eq_true, if_false]
  refine ⟨h1, ?_, ?_, ?_, ?_⟩ <;> dsimp only
  · intro a ha
    split
    · dsimp only
      split
      · exact h2 a ha
      · exact h2 a ha
    · exact h2 a ha
  · intro a ha
    split at ha
    · dsimp only at ha
      split at ha
      · exact h3 a ha
      · exact h3 a ha
    · exact h3 a ha
  · intro a ha
    split
    · dsimp only
      split
      · exact h4 a ha
      · exact h4 a ha
    · exact h4 a ha
  · intro i hi
    split
    case isTrue hlt =>
      dsimp only
      by_cases hieq : i = (registerNode fn s).call_stack_depth
      · simpa [hieq] using hna
      · simp only [if_neg hieq]
        apply h5
        simp only [registerNode_depth] at hieq hi ⊢
        omega
    case isFalse hge =>
      apply h5
      simp only [registerNode_depth] at hi hge ⊢
      omega

theorem inv_funcExit (c : Nat) (s : ProfState) (h : Inv s) :
    Inv (funcExit true c s) := by
  obtain ⟨h1, h2, h3, h4, h5⟩ := h
  unfold funcExit
  split
  case isTrue => exact ⟨h1, h2, h3, h4, h5⟩
  case isFalse hcond =>
    refine ⟨h1, ?_, ?_, ?_, ?_⟩
    · intro a ha
      dsimp only
      split
      · exact h2 a ha
      · exact h2 a ha
    · intro a ha
      dsimp only at ha
      split at ha
      · exact h3 a ha
      · exact h3 a ha
    · intro a ha
      dsimp only
      split
      · exact h4 a ha
      · exact h4 a ha
    · intro i hi
      dsimp only at hi
      apply h5
      omega

theorem inv_step (s : ProfState) (e : Event) (h : Inv s) : Inv (step s e) := by
  cases e with
  | enter fn cs c => exact inv_funcEnter fn cs c s h
  | exit c => exact inv_funcExit c s h

theorem inv_run (es : List Event) : ∀ (s : ProfState), Inv s → Inv (run s es) := by
  induction es with
  | nil => intro s h; exact h
  | cons e rest ih =>
    intro s h
    exact ih (step s e) (inv_step s e h)

/-- A node that already carries the magic marker is left untouched by
the initialisation block. -/
theorem registerNode_node_of_magic (fn : Nat) (s : ProfState) (a : Nat)
    (h : (s.node a).magic = PROFILE_MAGIC) :
    (registerNode fn s).node a = s.node a := by
  unfold registerNode
  dsimp only
  split
  case isFalse => rfl
  case isTrue hfresh =>
    dsimp only
    rw [if_neg]
    intro hna
    rw [← hna] at hfresh
    exact hfresh h

theorem inv_map_fn_nodup (s : ProfState) (h : Inv s) :
    (s.registry.map (fun a => (s.node a).fn)).Nodup := by
  refine List.Nodup.map_on ?_ h.1
  intro x hx y hy hfe
  have hx4 := h.2.2.2.1 x hx
  have hy4 := h.2.2.2.1 y hy
  rw [← hx4, ← hy4, hfe]

/-- Claim C7: a Counter Node, once marked valid, is never re-initialised
by a later entry event and its identity (`fn`) never changes; the node
location is a deterministic function of the function address alone —
the call-site argument is never used, so entering the same function
from two different call sites has identical effect — and in sequential
execution the registry never contains two nodes with the same identity. -/
theorem node_identity_stable :
    (∀ (ready : Bool) (fn cs1 cs2 c : Nat) (s : ProfState),
      funcEnter ready fn cs1 c s = funcEnter ready fn cs2 c s) ∧
    (∀ (ready : Bool) (fn cs c : Nat) (s : ProfState) (a : Nat),
      (s.node a).magic = PROFILE_MAGIC →
      ((funcEnter ready fn cs c s).node a).magic = PROFILE_MAGIC ∧
      ((funcEnter ready fn cs c s).node a).fn = (s.node a).fn) ∧
    (∀ (ready : Bool) (c : Nat) (s : ProfState) (a : Nat),
      ((funcExit ready c s).node a).magic = (s.node a).magic ∧
      ((funcExit ready c s).node a).fn = (s.node a).fn) ∧
    (∀ es : List Event,
      ((run initState es).registry.map
        (fun a => ((run initState es).node a).fn)).Nodup) := by
  refine ⟨?_, ?_, ?_, ?_⟩
  · intro ready fn cs1 cs2 c s
    rfl
  · intro ready fn cs c s a ha
    cases ready with
    | false => exact ⟨ha, rfl⟩
    | true =>
      have hr := registerNode_node_of_magic fn s a ha
      unfold funcEnter
      simp only [Bool.not_true, Bool.false_eq_true, if_false]
      split
      · dsimp only
        split
        · simp [hr, ha]
        · simp [hr, ha]
      · simp [hr, ha]
  · intro ready c s a
    unfold funcExit
    split
    · exact ⟨rfl, rfl⟩
    · dsimp only
      split
      · exact ⟨rfl, rfl⟩
      · exact ⟨rfl, rfl⟩
  · intro es
    exact inv_map_fn_nodup _ (inv_run es initState inv_initState)

/-- Witness for claim C7: the already-valid node at address 64 keeps
its marker and identity across an entry event for a different function. -/
theorem node_identity_stable_witness :
    ((funcEnter true 300 0 9 witnessState).node 64).magic = PROFILE_MAGIC ∧
    ((funcEnter true 300 0 9 witnessState).node 64).fn =
      (witnessState.node 64).fn :=
  node_identity_stable.2.1 true 300 0 9 witnessState 64 (by decide)

/-! ## Trace-level cycle accounting -/

/-- The counter reading carried by an event. -/
def eventCounter : Event → Nat
  | .enter _ _ c => c
  | .exit c => c

/-- The logical depth after an event (entry increments, exit
decrements). -/
def nextDepth (d : Nat) : Event → Nat
  | .enter _ _ _ => d + 1
  | .exit _ => d - 1

/-- The depth after the whole trace. -/
def foldDepth (d : Nat) (es : List Event) : Nat := es.foldl nextDepth d

/-- The depth is positive at every event of the trace: a single nested
call tree, with no intermediate return to depth zero. -/
def depthPos : Nat → List Event → Bool
  | _, [] => true
  | d, e :: es => !(d == 0) && depthPos (nextDepth d e) es

/-- The counter readings are nondecreasing, starting at `p` and all
bounded by `B` (a monotone hardware counter that does not wrap during
the trace). -/
def cmono : Nat → Nat → List Event → Bool
  | _, _, [] => true
  | p, B, e :: es =>
    Nat.ble p (eventCounter e) && Nat.ble (eventCounter e) B &&
      cmono (eventCounter e) B es

/-- The last counter reading of the trace (`p` if it is empty). -/
def lastCounter (p : Nat) : List Event → Nat
  | [] => p
  | e :: es => lastCounter (eventCounter e) es

/-- The sum of the accumulated cycle counts over the registry. -/
def regSum (s : ProfState) : Nat :=
  (s.registry.map (fun a => (s.node a).cycle_count)).sum

theorem map_ext_mem (l : List Nat) (f g : Nat → Nat)
    (h : ∀ a ∈ l, f a = g a) : l.map f = l.map g := by
  induction l with
  | nil => rfl
  | cons x xs ih =>
    rw [List.map_cons, List.map_cons, h x (by simp),
      ih (fun a ha => h a (by simp [ha]))]

theorem sum_map_mem_le (l : List Nat) (f : Nat → Nat) (t : Nat) (ht : t ∈ l) :
    f t ≤ (l.map f).sum :=
  List.single_le_sum (fun x _ => Nat.zero_le x) _ (List.mem_map_of_mem f ht)

/-- Changing a map at one element of a duplicate-free list adds the
difference to the sum. -/
theorem sum_map_update (l : List Nat) (f g : Nat → Nat) (t d : Nat)
    (hnd : l.Nodup) (ht : t ∈ l)
    (hg_t : g t = f t + d) (hg : ∀ a ∈ l, a ≠ t → g a = f a) :
    (l.map g).sum = (l.map f).sum + d := by
  induction l with
  | nil => cases ht
  | cons x xs ih =>
    rw [List.nodup_cons] at hnd
    rcases List.mem_cons.mp ht with rfl | hts
    · have hxs : xs.map g = xs.map f :=
        map_ext_mem xs g f (fun a ha =>
          hg a (by simp [ha]) (fun he => hnd.1 (he ▸ ha)))
      rw [List.map_cons, List.map_cons, List.sum_cons, List.sum_cons, hxs, hg_t]
      omega
    · have hxt : x ≠ t := fun he => hnd.1 (he ▸ hts)
      rw [List.map_cons, List.map_cons, List.sum_cons, List.sum_cons,
        hg x (by simp) hxt,
        ih hnd.2 hts (fun a ha hat => hg a (by simp [ha]) hat)]
      omega

/-- A node already in the registry is untouched by the initialisation
block. -/
theorem registerNode_node_of_mem (fn : Nat) (s : ProfState) (a : Nat)
    (h : Inv s) (ha : a ∈ s.registry) :
    (registerNode fn s).node a = s.node a :=
  registerNode_node_of_magic fn s a (h.2.1 a ha)

theorem registerNode_registry_mem (fn : Nat) (s : ProfState) (a : Nat)
    (ha : a ∈ s.registry) : a ∈ (registerNode fn s).registry := by
  unfold registerNode
  dsimp only
  split
  · exact List.mem_append_left _ ha
  · exact ha

/-- Registration does not change the registry's accumulated sum: a
fresh node is appended with a zero count, and existing nodes keep
their counts. -/
theorem regSum_registerNode (fn : Nat) (s : ProfState) (h : Inv s) :
    regSum (registerNode fn s) = regSum s := by
  unfold regSum registerNode
  dsimp only
  split
  case isFalse => rfl
  case isTrue hfresh =>
    have hnin : node_from_fn fn ∉ s.registry := fun hmem => hfresh (h.2.1 _ hmem)
    dsimp only
    rw [List.map_append, List.sum_append,
      map_ext_mem s.registry _ (fun a => (s.node a).cycle_count)
        (fun a ha => by
          have hne : a ≠ node_from_fn fn := fun he => hnin (he ▸ ha)
          simp [hne])]
    simp

/-- One event at positive depth, with a monotone in-range counter and
no saturation, moves the registry sum up by exactly the elapsed cycles
and the baseline to the current reading. -/
theorem step_sum (s : ProfState) (e : Event) (hInv : Inv s)
    (hd : 0 < s.call_stack_depth)
    (hpc : s.previous_cycles ≤ eventCounter e)
    (hcU : eventCounter e < U64)
    (hbound : regSum s + (eventCounter e - s.previous_cycles) ≤ UINT64_MAX) :
    regSum (step s e) = regSum s + (eventCounter e - s.previous_cycles) ∧
    (step s e).previous_cycles = eventCounter e ∧
    (step s e).call_stack_depth = nextDepth s.call_stack_depth e := by
  have husub : usub (eventCounter e) s.previous_cycles =
      eventCounter e - s.previous_cycles := usub_of_le _ _ hpc hcU
  have hmod : eventCounter e % U64 = eventCounter e := Nat.mod_eq_of_lt hcU
  cases e with
  | exit c =>
    simp only [eventCounter] at husub hpc hcU hbound hmod ⊢
    have ht : s.call_stack (stackIndex s.call_stack_depth) ∈ s.registry :=
      hInv.2.2.2.2 _ (stackIndex_lt_min _ hd)
    have hle : (s.node (s.call_stack (stackIndex s.call_stack_depth))).cycle_count ≤
        regSum s := by
      unfold regSum
      exact sum_map_mem_le s.registry (fun a => (s.node a).cycle_count) _ ht
    have hclamp : clamped_add
        ((s.node (s.call_stack (stackIndex s.call_stack_depth))).cycle_count)
        (c - s.previous_cycles) =
        (s.node (s.call_stack (stackIndex s.call_stack_depth))).cycle_count +
          (c - s.previous_cycles) :=
      clamped_add_of_le _ _ (by omega)
    refine ⟨?_, ?_, ?_⟩
    · show regSum (funcExit true c s) = _
      unfold funcExit regSum
      rw [if_neg (by simp; omega)]
      dsimp only
      rw [husub]
      exact sum_map_update s.registry _ _ _ (c - s.previous_cycles) hInv.1 ht
        (by simp [hclamp]) (fun a ha hne => by simp [hne])
    · show (funcExit true c s).previous_cycles = c
      unfold funcExit
      rw [if_neg (by simp; omega)]
      exact hmod
    · show (funcExit true c s).call_stack_depth = _
      unfold funcExit
      rw [if_neg (by simp; omega)]
      rfl
  | enter fn cs c =>
    simp only [eventCounter] at husub hpc hcU hbound hmod ⊢
    have hInv1 := inv_registerNode fn s hInv
    have hdep1 := registerNode_depth fn s
    have hstk1 := registerNode_stack fn s
    have hprev1 := registerNode_prev fn s
    have ht : s.call_stack (stackIndex s.call_stack_depth) ∈ s.registry :=
      hInv.2.2.2.2 _ (stackIndex_lt_min _ hd)
    have ht1 : s.call_stack (stackIndex s.call_stack_depth) ∈
        (registerNode fn s).registry := registerNode_registry_mem fn s _ ht
    have hnode1 : (registerNode fn s).node
        (s.call_stack (stackIndex s.call_stack_depth)) =
        s.node (s.call_stack (stackIndex s.call_stack_depth)) :=
      registerNode_node_of_mem fn s _ hInv ht
    have hle : (s.node (s.call_stack (stackIndex s.call_stack_depth))).cycle_count ≤
        regSum s := by
      unfold regSum
      exact sum_map_mem_le s.registry (fun a => (s.node a).cycle_count) _ ht
    have hclamp : clamped_add
        (((registerNode fn s).node
            (s.call_stack (stackIndex s.call_stack_depth))).cycle_count)
        (c - s.previous_cycles) =
        (((registerNode fn s).node
            (s.call_stack (stackIndex s.call_stack_depth))).cycle_count) +
          (c - s.previous_cycles) := by
      rw [hnode1]
      exact clamped_add_of_le _ _ (by omega)
    have hnodeEq : (funcEnter true fn cs c s).node =
        fun a => if a = s.call_stack (stackIndex s.call_stack_depth) then
            { magic := ((registerNode fn s).node a).magic,
              cycle_count := clamped_add (((registerNode fn s).node a).cycle_count)
                (c - s.previous_cycles),
              fn := ((registerNode fn s).node a).fn }
          else (registerNode fn s).node a := by
      unfold funcEnter
      simp only [Bool.not_true, Bool.false_eq_true, if_false]
      simp only [hdep1, hstk1, hprev1, husub]
      rw [if_pos hd]
    have hregEq : (funcEnter true fn cs c s).registry =
        (registerNode fn s).registry := by
      unfold funcEnter
      simp only [Bool.not_true, Bool.false_eq_true, if_false]
    refine ⟨?_, ?_, ?_⟩
    · show regSum (funcEnter true fn cs c s) = _
      have hL : regSum (funcEnter true fn cs c s) =
          (List.map (fun a =>
              (if a = s.call_stack (stackIndex s.call_stack_depth) then
                  ({ magic := ((registerNode fn s).node a).magic,
                     cycle_count := clamped_add
                       (((registerNode fn s).node a).cycle_count)
                       (c - s.previous_cycles),
                     fn := ((registerNode fn s).node a).fn } : ProfNode)
                else (registerNode fn s).node a).cycle_count)
            (registerNode fn s).registry).sum := by
        unfold regSum
        simp only [hregEq, hnodeEq]
      rw [hL,
        show regSum s = (List.map
            (fun a => ((registerNode fn s).node a).cycle_count)
            (registerNode fn s).registry).sum from
          (regSum_registerNode fn s hInv).symm]
      exact sum_map_update _ _ _ _ _ hInv1.1 ht1
        (by simp only [if_pos rfl]; exact hclamp)
        (fun a ha hne => by simp [hne])
    · show (funcEnter true fn cs c s).previous_cycles = c
      unfold funcEnter
      simp only [Bool.not_true, Bool.false_eq_true, if_false]
      exact hmod
    · show (funcEnter true fn cs c s).call_stack_depth = _
      unfold funcEnter
      simp only [Bool.not_true, Bool.false_eq_true, if_false]
      exact congrArg (fun x => x + 1) hdep1

/-- The first entry from depth zero attributes nothing: it only
registers the node, sets the baseline and pushes. -/
theorem enter0 (fn cs c : Nat) (s : ProfState) (hInv : Inv s)
    (hd : s.call_stack_depth = 0) (hcU : c < U64) :
    regSum (funcEnter true fn cs c s) = regSum s ∧
    (funcEnter true fn cs c s).previous_cycles = c ∧
    (funcEnter true fn cs c s).call_stack_depth = 1 := by
  have hdep1 := registerNode_depth fn s
  refine ⟨?_, ?_, ?_⟩
  · show regSum (funcEnter true fn cs c s) = _
    unfold funcEnter
    simp only [Bool.not_true, Bool.false_eq_true, if_false]
    unfold regSum
    dsimp only
    rw [if_neg (by rw [hdep1]; omega)]
    exact regSum_registerNode fn s hInv
  · unfold funcEnter
    simp only [Bool.not_true, Bool.false_eq_true, if_false]
    exact Nat.mod_eq_of_lt hcU
  · unfold funcEnter
    simp only [Bool.not_true, Bool.false_eq_true, if_false]
    rw [hdep1, hd]

/-- The telescoping-sum invariant over a trace whose depth stays
positive and whose counters are nondecreasing and bounded by
`B < 2^64`: the registry sum grows by exactly the elapsed cycles (no
`clamped_add` ever saturates, because each node's count is bounded by
the total elapsed cycles, which fit in 64 bits). -/
theorem run_sum (es : List Event) : ∀ (s : ProfState) (B : Nat),
    Inv s → depthPos s.call_stack_depth es = true →
    cmono s.previous_cycles B es = true → B < U64 →
    regSum s + B ≤ UINT64_MAX + s.previous_cycles →
    Inv (run s es) ∧
    regSum (run s es) + s.previous_cycles = regSum s + (run s es).previous_cycles ∧
    (run s es).previous_cycles = lastCounter s.previous_cycles es ∧
    regSum (run s es) + B ≤ UINT64_MAX + (run s es).previous_cycles ∧
    (run s es).call_stack_depth = foldDepth s.call_stack_depth es := by
  induction es with
  | nil =>
    intro s B h1 _ _ _ h5
    exact ⟨h1, rfl, rfl, h5, rfl⟩
  | cons e rest ih =>
    intro s B hInv hdp hcm hBU hbd
    simp only [depthPos, Bool.and_eq_true] at hdp
    obtain ⟨hd0, hdp'⟩ := hdp
    have hd : 0 < s.call_stack_depth := by
      rcases Nat.eq_zero_or_pos s.call_stack_depth with h | h
      · rw [h] at hd0; simp at hd0
      · exact h
    simp only [cmono, Bool.and_eq_true] at hcm
    obtain ⟨⟨hple, hcB⟩, hcm'⟩ := hcm
    have hple' := Nat.le_of_ble_eq_true hple
    have hcB' := Nat.le_of_ble_eq_true hcB
    have hcU : eventCounter e < U64 := lt_of_le_of_lt hcB' hBU
    have hbd1 : regSum s + (eventCounter e - s.previous_cycles) ≤ UINT64_MAX := by
      omega
    obtain ⟨hsum, hprev, hdep⟩ := step_sum s e hInv hd hple' hcU hbd1
    have hInv' := inv_step s e hInv
    have hrun : run s (e :: rest) = run (step s e) rest := rfl
    rw [hrun]
    obtain ⟨i1, i2, i3, i4, i5⟩ := ih (step s e) B hInv'
      (by rw [hdep]; exact hdp') (by rw [hprev]; exact hcm') hBU
      (by rw [hprev, hsum]; omega)
    rw [hprev] at i2 i3
    rw [hsum] at i2
    refine ⟨i1, by omega, ?_, i4, ?_⟩
    · simp only [lastCounter]
      exact i3
    · simp only [foldDepth, List.foldl_cons]
      rw [i5, hdep]
      rfl

/-- The four-event trace used as the counterexample to claim C1 as
literally stated: two consecutive top-level calls (the depth returns
to zero in the middle of the trace). -/
def cexTrace : List Event :=
  [Event.enter 100 0 0, Event.exit 1, Event.enter 200 0 5, Event.exit 6]

/-- Counterexample to claim C1 as stated: the balanced trace
`enter f @0, exit @1, enter g @5, exit @6` starts at depth zero, ends
at depth zero, touches exactly the two nodes 64 and 160 (of the
functions at 100 and 200), and no saturation occurs — yet the counts
sum to 2, not to the elapsed `6 − 0 = 6` between the first entry
reading and the last exit reading: the cycles elapsed while the thread
was at depth zero (between the first exit and the second entry) are
attributed to no node. -/
theorem balanced_sum_cex :
    foldDepth 0 cexTrace = 0 ∧
    (run initState cexTrace).registry = [64, 160] ∧
    ((run initState cexTrace).node 64).cycle_count = 1 ∧
    ((run initState cexTrace).node 160).cycle_count = 1 ∧
    regSum (run initState cexTrace) = 2 ∧
    regSum (run initState cexTrace) ≠ 6 - 0 := by
  refine ⟨by decide, by decide, by decide, by decide, by decide, by decide⟩

/-- Claim C1 (amended): for a balanced single-threaded trace beginning
with an entry at depth zero, with nondecreasing in-range counter
readings, and whose depth stays positive strictly inside the trace (a
single top-level call tree — without this the cycles spent at depth
zero are attributed to no node, see the counterexample), the sum of
`cycle_count` over the registry — all distinct nodes touched, each
appearing once — equals the elapsed cycles between the first entry
reading and the last exit reading; no saturation occurs under these
hypotheses. -/
theorem balanced_trace_sum (fn cs c1 B : Nat) (rest : List Event)
    (hc1B : c1 ≤ B) (hBU : B < U64)
    (hmono : cmono c1 B rest = true)
    (hpos : depthPos 1 rest = true)
    (hbal : foldDepth 1 rest = 0) :
    regSum (run initState (Event.enter fn cs c1 :: rest)) =
      lastCounter c1 rest - c1 ∧
    c1 ≤ lastCounter c1 rest ∧
    (run initState (Event.enter fn cs c1 :: rest)).call_stack_depth = 0 := by
  have hc1U : c1 < U64 := lt_of_le_of_lt hc1B hBU
  obtain ⟨he1, he2, he3⟩ := enter0 fn cs c1 initState inv_initState rfl hc1U
  have hInv1 := inv_funcEnter fn cs c1 initState inv_initState
  have hrun : run initState (Event.enter fn cs c1 :: rest) =
      run (funcEnter true fn cs c1 initState) rest := rfl
  rw [hrun]
  have hreg0 : regSum initState = 0 := rfl
  obtain ⟨i1, i2, i3, i4, i5⟩ := run_sum rest (funcEnter true fn cs c1 initState)
    B hInv1 (by rw [he3]; exact hpos) (by rw [he2]; exact hmono) hBU
    (by rw [he2, he1, hreg0]; have := hBU; simp only [UINT64_MAX, U64] at *; omega)
  rw [he1, hreg0, he2] at i2
  rw [he2] at i3
  rw [i3] at i2
  refine ⟨by omega, by omega, ?_⟩
  rw [i5, he3]
  exact hbal

/-- Witness for the amended claim C1: the trace
`enter f @2, exit @9` accumulates `9 − 2 = 7` cycles in total. -/
theorem balanced_trace_sum_witness :
    regSum (run initState (Event.enter 100 0 2 :: [Event.exit 9])) =
      lastCounter 2 [Event.exit 9] - 2 ∧
    regSum (run initState (Event.enter 100 0 2 :: [Event.exit 9])) = 7 :=
  ⟨(balanced_trace_sum 100 0 2 9 [Event.exit 9] (by decide) (by decide)
      (by decide) (by decide) (by decide)).1,
   by decide⟩

end Sel4Prof
